import Mathlib

/- Verification of the maximal-clique engine of peaktraffic.py (class Graph:
   add_pair, neighbors, degree, vertices, degeneracy_ordering, max_cliques and
   the recursive step _bron_kerbosch).

   Modelling conventions of this shallow embedding:
   - Python vertices (opaque hashable ids; email strings in the application) are
     modelled as values of type Nat: the code uses only equality and an
     arbitrary deterministic order on them.
   - The Python dict self._adjacency_map is modelled as an association list
     List (Nat × Finset Nat); dict iteration order is modelled as insertion
     order.  Python frozensets of vertices are modelled as Finset Nat, and
     frozenset iteration order is modelled as ascending numeric order.
   - Lookup of a missing key (Python raises KeyError) is modelled with Option.
   - The recursion of _bron_kerbosch is modelled with a fuel parameter.  For
     every graph whose adjacency relation is irreflexive the recursion depth is
     bounded by |possible| + 1, so the fuel chosen in max_cliques (number of
     vertices + 1) never runs out; on a graph with a self-loop the Python
     recursion does not terminate at all.  -/

/-- First-match lookup in the association list modelling of the dict
`self._adjacency_map`; `none` models a Python `KeyError`. -/
def lookupNb : List (Nat × Finset Nat) → Nat → Option (Finset Nat)
  | [], _ => none
  | (k, s) :: rest, x => if k = x then some s else lookupNb rest x

/-- One directed half of `add_pair`: `self._adjacency_map[u].add(v)` when `u`
is already a key, `self._adjacency_map[u] = {v}` otherwise. -/
def addKey : List (Nat × Finset Nat) → Nat → Nat → List (Nat × Finset Nat)
  | [], u, v => [(u, {v})]
  | (k, s) :: rest, u, v =>
      if k = u then (k, insert v s) :: rest else (k, s) :: addKey rest u v

/-- The Python class `Graph`: an undirected graph as an adjacency map. -/
structure Graph where
  adj : List (Nat × Finset Nat)

/-- `Graph.add_pair(u, v)`: inserts `v` into `u`'s incidence set and `u` into
`v`'s, creating the entries when absent.  (The Python method also returns the
tuple `(u, v)`, which no caller of the core uses; only the state change is
modelled.) -/
def Graph.add_pair (g : Graph) (u v : Nat) : Graph :=
  ⟨addKey (addKey g.adj u v) v u⟩

/-- `Graph.neighbors(key)`: `frozenset(self._adjacency_map[key])`; `none`
models the `KeyError` raised when `key` was never added. -/
def Graph.neighbors (g : Graph) (key : Nat) : Option (Finset Nat) :=
  lookupNb g.adj key

/-- The neighbor set of a key that is present (default `∅` when absent);
used to state properties and inside the search, which only ever queries
present keys. -/
def neighborsD (g : Graph) (key : Nat) : Finset Nat :=
  (g.neighbors key).getD ∅

/-- `Graph.degree(key) = len(self.neighbors(key))`; propagates the
`KeyError` of `neighbors`. -/
def Graph.degree (g : Graph) (key : Nat) : Option Nat :=
  (g.neighbors key).map Finset.card

/-- Degree of a present key (0 when absent); agrees with `Graph.degree` on
every key of the map. -/
def degreeD (g : Graph) (key : Nat) : Nat :=
  (neighborsD g key).card

/-- `Graph.vertices()`: the keys of the adjacency map, in map order. -/
def Graph.vertices (g : Graph) : List Nat :=
  g.adj.map Prod.fst

/-- `Graph.degeneracy_ordering()`: `sorted(self._adjacency_map, key=self.degree)`,
a single stable sort of the keys by their degree in the full graph.
`List.insertionSort` is a stable sort, like Python's `sorted`. -/
def Graph.degeneracy_ordering (g : Graph) : List Nat :=
  List.insertionSort (fun a b => degreeD g a ≤ degreeD g b) g.vertices

/-- The vertex set of the graph as a finite set. -/
def vertsFinset (g : Graph) : Finset Nat := g.vertices.toFinset

/-- The elements of a finite set of vertices listed in ascending order: the
modelled iteration order of a Python frozenset (`for v in iter(possible)`). -/
def finsetAscList (P : Finset Nat) : List Nat :=
  (List.range (P.sup id + 1)).filter (fun x => x ∈ P)

/-- The `for v in iter(possible)` loop shared by `max_cliques` and
`_bron_kerbosch`: iterates over the snapshot list of the candidate set taken at
loop entry, calling `next` (the recursive step, one fuel level down) on
`(acc ∪ {v}, possible ∩ N(v), excluded ∩ N(v))` and then shrinking `possible`
and growing `excluded` for the later iterations. -/
def bkLoopF (next : Finset Nat → Finset Nat → Finset Nat → List (Finset Nat))
    (g : Graph) (R : Finset Nat) :
    List Nat → Finset Nat → Finset Nat → List (Finset Nat)
  | [], _, _ => []
  | v :: rest, P, X =>
      next (insert v R) (P ∩ neighborsD g v) (X ∩ neighborsD g v) ++
        bkLoopF next g R rest (P.erase v) (insert v X)

/-- Plain (non-dependent) iteration on Nat, used to give `_bron_kerbosch` a
structurally recursive (hence kernel-computable) definition over its fuel. -/
def natIter {α : Type} (z : α) (s : α → α) : Nat → α
  | 0 => z
  | n + 1 => s (natIter z s n)

/-- `Graph._bron_kerbosch(acc, possible, excluded, cliques)` with explicit fuel:
if both `possible` and `excluded` are empty, append `acc` to the output; then
run the candidate loop over the snapshot of `possible`.  The appends of the
Python accumulator list `cliques` are modelled by the returned list. -/
def bk (g : Graph) (fuel : Nat) :
    Finset Nat → Finset Nat → Finset Nat → List (Finset Nat) :=
  natIter (fun _ _ _ => [])
    (fun ih R P X =>
      (if P = ∅ ∧ X = ∅ then [R] else []) ++ bkLoopF ih g R (finsetAscList P) P X)
    fuel

/-- The outer loop of `max_cliques`: for each `v` of the degeneracy-ordered
vertex list, call `_bron_kerbosch(acc ∪ {v}, possible ∩ N(v), excluded ∩ N(v))`
with `acc = ∅`, then remove `v` from `possible` and add it to `excluded`. -/
def maxCliquesAux (g : Graph) (fuel : Nat) :
    List Nat → Finset Nat → Finset Nat → List (Finset Nat)
  | [], _, _ => []
  | v :: rest, possible, excluded =>
      bk g fuel (insert v ∅) (possible ∩ neighborsD g v) (excluded ∩ neighborsD g v) ++
        maxCliquesAux g fuel rest (possible.erase v) (insert v excluded)

/-- `Graph.max_cliques()`: `possible = frozenset(self.vertices())`,
`acc = excluded = frozenset()`, then the degeneracy-ordered outer loop.  The
fuel `|vertices| + 1` is enough for every irreflexive graph. -/
def Graph.max_cliques (g : Graph) : List (Finset Nat) :=
  maxCliquesAux g (g.vertices.length + 1) g.degeneracy_ordering (vertsFinset g) ∅

/-- A graph built by a sequence of `add_pair` calls, starting from the empty
adjacency map of `Graph.__init__`. -/
def buildGraph (ps : List (Nat × Nat)) : Graph :=
  ps.foldl (fun g p => g.add_pair p.1 p.2) ⟨[]⟩

/-- `Adj g u v`: `v` is a member of `u`'s neighbor set. -/
def Adj (g : Graph) (u v : Nat) : Prop := v ∈ neighborsD g u

instance (g : Graph) (u v : Nat) : Decidable (Adj g u v) :=
  inferInstanceAs (Decidable (v ∈ neighborsD g u))

/-- A set of vertices that is pairwise fully connected in `g`. -/
def IsClique (g : Graph) (S : Finset Nat) : Prop :=
  ∀ u ∈ S, ∀ v ∈ S, u ≠ v → Adj g u v

instance (g : Graph) (S : Finset Nat) : Decidable (IsClique g S) :=
  inferInstanceAs (Decidable (∀ u ∈ S, ∀ v ∈ S, u ≠ v → Adj g u v))

/-- A maximal clique of `g`: a nonempty clique of vertices of `g` that no
further vertex of `g` is adjacent to in full. -/
def IsMaxClique (g : Graph) (S : Finset Nat) : Prop :=
  S.Nonempty ∧ S ⊆ vertsFinset g ∧ IsClique g S ∧
    ∀ w ∈ vertsFinset g, w ∉ S → ¬ ∀ u ∈ S, Adj g u w

instance (g : Graph) (S : Finset Nat) : Decidable (IsMaxClique g S) :=
  inferInstanceAs (Decidable (_ ∧ _ ∧ _ ∧ ∀ w ∈ vertsFinset g, w ∉ S → ¬ ∀ u ∈ S, Adj g u w))

/-- Number of occurrences of the clique `S` in an output list. -/
def countClique (S : Finset Nat) : List (Finset Nat) → Nat
  | [] => 0
  | T :: rest => (if T = S then 1 else 0) + countClique S rest

/-- Residual degree: the number of neighbors of `v` among a remaining list of
vertices. -/
def resDeg (g : Graph) (v : Nat) (remaining : List Nat) : Nat :=
  ((neighborsD g v).filter (fun w => w ∈ remaining)).card

/-- The min-degree peeling condition on a vertex list: each vertex has minimum
degree among the not-yet-placed vertices (itself and the later ones), degree
being counted only against the not-yet-placed vertices. -/
def peelCondB (g : Graph) : List Nat → Bool
  | [] => true
  | v :: rest =>
      ((v :: rest).all fun w =>
          decide (resDeg g v (v :: rest) ≤ resDeg g w (v :: rest))) &&
        peelCondB g rest

/-- The ordering property claimed of `degeneracy_ordering()`: the list contains
every vertex of the graph exactly once and satisfies the min-degree peeling
condition at every position. -/
def IsMinDegPeeling (g : Graph) (l : List Nat) : Prop :=
  (∀ v ∈ g.vertices, l.count v = 1) ∧ (∀ v ∈ l, v ∈ g.vertices) ∧
    peelCondB g l = true

instance (g : Graph) (l : List Nat) : Decidable (IsMinDegPeeling g l) :=
  inferInstanceAs (Decidable (_ ∧ _ ∧ _))

/-- A star with center 0 and leaves 1, 2, 3, together with a disjoint triangle
on 4, 5, 6. -/
def gStar : Graph := buildGraph [(0, 1), (0, 2), (0, 3), (4, 5), (5, 6), (6, 4)]

/-- The invariant carried by every `_bron_kerbosch` frame `(R, P, X)`:
`R` is a nonempty clique of graph vertices, every vertex of `P ∪ X` is a graph
vertex adjacent to all of `R`, every graph vertex outside `R` adjacent to all
of `R` lies in `P ∪ X`, and `P ∪ X` avoids `R`. -/
structure BKInv (g : Graph) (R P X : Finset Nat) : Prop where
  nonempty : R.Nonempty
  clique : IsClique g R
  subVerts : R ⊆ vertsFinset g
  adjAll : ∀ w ∈ P ∪ X, w ∈ vertsFinset g ∧ ∀ r ∈ R, Adj g r w
  complete : ∀ w ∈ vertsFinset g, w ∉ R → (∀ r ∈ R, Adj g r w) → w ∈ P ∪ X
  disj : ∀ w ∈ P ∪ X, w ∉ R

/-! State-threaded reading of `max_cliques`, used to express that the search
never mutates the graph: every statement of the Python source that touches
`self` is transcribed as a transformation of an explicit graph state, and the
only primitives are reads (`neighbors`, `vertices`, `degeneracy_ordering`),
which return the adjacency map they were given. -/

/-- `self.neighbors(v)` as a state transformer: a read of the adjacency map. -/
def neighborsSt (g : Graph) (key : Nat) : Graph × Finset Nat :=
  (g, neighborsD g key)

/-- `self.vertices()` as a state transformer: a read of the adjacency map. -/
def verticesSt (g : Graph) : Graph × List Nat :=
  (g, g.vertices)

/-- `self.degeneracy_ordering()` as a state transformer: reads of the
adjacency map and of the degrees of its keys. -/
def degeneracyOrderingSt (g : Graph) : Graph × List Nat :=
  (g, g.degeneracy_ordering)

/-- State-threaded candidate loop of `_bron_kerbosch`: each iteration reads
`self.neighbors(v)`, recurses on the resulting state, and continues on the
state the recursion returns. -/
def bkLoopStF
    (next : Graph → Finset Nat → Finset Nat → Finset Nat → Graph × List (Finset Nat))
    (R : Finset Nat) :
    Graph → List Nat → Finset Nat → Finset Nat → Graph × List (Finset Nat)
  | g, [], _, _ => (g, [])
  | g, v :: rest, P, X =>
      let p := neighborsSt g v
      let q := next p.1 (insert v R) (P ∩ p.2) (X ∩ p.2)
      let r := bkLoopStF next R q.1 rest (P.erase v) (insert v X)
      (r.1, q.2 ++ r.2)

/-- State-threaded `_bron_kerbosch` with the same fuel discipline as `bk`. -/
def bkSt (fuel : Nat) :
    Graph → Finset Nat → Finset Nat → Finset Nat → Graph × List (Finset Nat) :=
  natIter (fun g _ _ _ => (g, []))
    (fun ih g R P X =>
      let r := bkLoopStF ih R g (finsetAscList P) P X
      (r.1, (if P = ∅ ∧ X = ∅ then [R] else []) ++ r.2))
    fuel

/-- State-threaded outer loop of `max_cliques`. -/
def maxCliquesAuxSt (fuel : Nat) :
    Graph → List Nat → Finset Nat → Finset Nat → Graph × List (Finset Nat)
  | g, [], _, _ => (g, [])
  | g, v :: rest, possible, excluded =>
      let p := neighborsSt g v
      let q := bkSt fuel p.1 (insert v ∅) (possible ∩ p.2) (excluded ∩ p.2)
      let r := maxCliquesAuxSt fuel q.1 rest (possible.erase v) (insert v excluded)
      (r.1, q.2 ++ r.2)

/-- State-threaded `Graph.max_cliques()`: reads `vertices()`, reads
`degeneracy_ordering()`, then runs the outer loop, returning the final
adjacency-map state together with the clique list. -/
def Graph.max_cliquesSt (g : Graph) : Graph × List (Finset Nat) :=
  let a := verticesSt g
  let b := degeneracyOrderingSt a.1
  maxCliquesAuxSt (a.2.length + 1) b.1 b.2 a.2.toFinset ∅

-- Sanity checks of the executable model (kernel-evaluated).
example : (buildGraph [(0, 1), (1, 2)]).max_cliques = [{0, 1}, {1, 2}] := by decide
example : (buildGraph [(0, 1), (1, 2), (2, 0)]).max_cliques = [{0, 1, 2}] := by decide
example : (buildGraph []).max_cliques = [] := by decide
example : (buildGraph [(0, 1), (1, 2)]).degeneracy_ordering = [0, 2, 1] := by decide
example : (buildGraph [(0, 1)]).neighbors 2 = none := by decide
example : (buildGraph [(0, 1)]).neighbors 0 = some {1} := by decide
example : (buildGraph [(0, 1)]).degree 1 = some 1 := by decide

/-! ## Lemmas about the adjacency map and graph construction -/

lemma lookupNb_addKey (m : List (Nat × Finset Nat)) (u v x : Nat) :
    lookupNb (addKey m u v) x =
      if x = u then some (insert v ((lookupNb m u).getD ∅)) else lookupNb m x := by
  induction m with
  | nil =>
      by_cases h : x = u
      · subst h; simp [addKey, lookupNb]
      · have h' : ¬u = x := fun hh => h hh.symm
        simp [addKey, lookupNb, h, h']
  | cons p rest ih =>
      obtain ⟨k, s⟩ := p
      by_cases hk : k = u
      · subst hk
        by_cases hx : k = x
        · subst hx; simp [addKey, lookupNb]
        · have hx' : ¬x = k := fun hh => hx hh.symm
          simp [addKey, lookupNb, hx, hx']
      · by_cases hx : k = x
        · have hxu : ¬x = u := fun hh => hk (hx.trans hh)
          simp [addKey, lookupNb, hk, hx, hxu]
        · simp [addKey, lookupNb, hk, hx, ih]

lemma mem_neighborsD_add_pair (g : Graph) (u v x w : Nat) :
    w ∈ neighborsD (g.add_pair u v) x ↔
      (x = u ∧ w = v) ∨ (x = v ∧ w = u) ∨ w ∈ neighborsD g x := by
  simp only [neighborsD, Graph.neighbors, Graph.add_pair]
  rw [lookupNb_addKey, lookupNb_addKey, lookupNb_addKey]
  split_ifs with h1 h2 h3
  · subst h1; subst h2
    simp only [Option.getD_some, Finset.mem_insert]
    tauto
  · subst h1
    simp only [Option.getD_some, Finset.mem_insert]
    tauto
  · subst h3
    simp only [Option.getD_some, Finset.mem_insert]
    tauto
  · tauto

lemma keys_addKey (m : List (Nat × Finset Nat)) (u v : Nat) :
    (addKey m u v).map Prod.fst =
      if u ∈ m.map Prod.fst then m.map Prod.fst else m.map Prod.fst ++ [u] := by
  induction m with
  | nil => simp [addKey]
  | cons p rest ih =>
      obtain ⟨k, s⟩ := p
      by_cases hk : k = u
      · subst hk; simp [addKey]
      · have hk' : ¬u = k := fun hh => hk hh.symm
        by_cases hmem : u ∈ rest.map Prod.fst <;>
          simp [addKey, hk, hk', hmem, ih]

lemma mem_keys_addKey (m : List (Nat × Finset Nat)) (u v x : Nat) :
    x ∈ (addKey m u v).map Prod.fst ↔ x = u ∨ x ∈ m.map Prod.fst := by
  rw [keys_addKey]
  split_ifs with h
  · constructor
    · exact fun hx => Or.inr hx
    · rintro (rfl | hx)
      · exact h
      · exact hx
  · rw [List.mem_append, List.mem_singleton]
    tauto

lemma mem_vertices_add_pair (g : Graph) (u v x : Nat) :
    x ∈ (g.add_pair u v).vertices ↔ x = u ∨ x = v ∨ x ∈ g.vertices := by
  simp only [Graph.vertices, Graph.add_pair]
  rw [mem_keys_addKey, mem_keys_addKey]
  tauto

lemma nodup_keys_addKey (m : List (Nat × Finset Nat)) (u v : Nat)
    (hm : (m.map Prod.fst).Nodup) : ((addKey m u v).map Prod.fst).Nodup := by
  rw [keys_addKey]
  split_ifs with hmem
  · exact hm
  · rw [List.nodup_append]
    refine ⟨hm, List.nodup_singleton _, ?_⟩
    intro a ha hb
    rw [List.mem_singleton] at hb
    subst hb
    exact hmem ha

lemma nodup_vertices_add_pair (g : Graph) (u v : Nat)
    (h : g.vertices.Nodup) : (g.add_pair u v).vertices.Nodup :=
  nodup_keys_addKey _ v u (nodup_keys_addKey _ u v h)

lemma lookupNb_eq_none (m : List (Nat × Finset Nat)) (x : Nat) :
    lookupNb m x = none ↔ x ∉ m.map Prod.fst := by
  induction m with
  | nil => simp [lookupNb]
  | cons p rest ih =>
      obtain ⟨k, s⟩ := p
      by_cases hk : k = x
      · subst hk
        simp [lookupNb]
      · rw [List.map_cons, List.mem_cons]
        simp only [lookupNb, if_neg hk]
        rw [ih]
        constructor
        · intro h hc
          rcases hc with hc | hc
          · exact hk hc.symm
          · exact h hc
        · exact fun h hx => h (Or.inr hx)

lemma lookupNb_mem (m : List (Nat × Finset Nat)) (x : Nat) (s : Finset Nat)
    (h : lookupNb m x = some s) : (x, s) ∈ m := by
  induction m with
  | nil => simp [lookupNb] at h
  | cons p rest ih =>
      obtain ⟨k, t⟩ := p
      by_cases hk : k = x
      · rw [show lookupNb ((k, t) :: rest) x = some t by simp [lookupNb, hk]] at h
        obtain rfl : t = s := Option.some.inj h
        rw [← hk]
        exact List.mem_cons_self _ _
      · simp only [lookupNb, if_neg hk] at h
        exact List.mem_cons_of_mem _ (ih h)

lemma mem_neighborsD_buildGraph (ps : List (Nat × Nat)) (x w : Nat) :
    w ∈ neighborsD (buildGraph ps) x ↔
      ∃ p ∈ ps, (p.1 = x ∧ p.2 = w) ∨ (p.1 = w ∧ p.2 = x) := by
  have main : ∀ (l : List (Nat × Nat)) (g : Graph),
      w ∈ neighborsD (l.foldl (fun g p => g.add_pair p.1 p.2) g) x ↔
        (∃ p ∈ l, (p.1 = x ∧ p.2 = w) ∨ (p.1 = w ∧ p.2 = x)) ∨
          w ∈ neighborsD g x := by
    intro l
    induction l with
    | nil => simp
    | cons p rest ih =>
        intro g
        rw [List.foldl_cons, ih, mem_neighborsD_add_pair]
        constructor
        · rintro (⟨q, hq, hc⟩ | h | h | h)
          · exact Or.inl ⟨q, List.mem_cons_of_mem _ hq, hc⟩
          · exact Or.inl ⟨p, List.mem_cons_self _ _, Or.inl ⟨h.1.symm, h.2.symm⟩⟩
          · exact Or.inl ⟨p, List.mem_cons_self _ _, Or.inr ⟨h.2.symm, h.1.symm⟩⟩
          · exact Or.inr h
        · rintro (⟨q, hq, hc⟩ | h)
          · rcases List.mem_cons.mp hq with hq | hq
            · subst hq
              rcases hc with hc | hc
              · exact Or.inr (Or.inl ⟨hc.1.symm, hc.2.symm⟩)
              · exact Or.inr (Or.inr (Or.inl ⟨hc.2.symm, hc.1.symm⟩))
            · exact Or.inl ⟨q, hq, hc⟩
          · exact Or.inr (Or.inr (Or.inr h))
  rw [buildGraph, main]
  simp [neighborsD, Graph.neighbors, lookupNb]

lemma mem_vertices_buildGraph (ps : List (Nat × Nat)) (x : Nat) :
    x ∈ (buildGraph ps).vertices ↔ ∃ p ∈ ps, p.1 = x ∨ p.2 = x := by
  have main : ∀ (l : List (Nat × Nat)) (g : Graph),
      x ∈ (l.foldl (fun g p => g.add_pair p.1 p.2) g).vertices ↔
        (∃ p ∈ l, p.1 = x ∨ p.2 = x) ∨ x ∈ g.vertices := by
    intro l
    induction l with
    | nil => simp
    | cons p rest ih =>
        intro g
        rw [List.foldl_cons, ih, mem_vertices_add_pair]
        constructor
        · rintro (⟨q, hq, hc⟩ | h | h | h)
          · exact Or.inl ⟨q, List.mem_cons_of_mem _ hq, hc⟩
          · exact Or.inl ⟨p, List.mem_cons_self _ _, Or.inl h.symm⟩
          · exact Or.inl ⟨p, List.mem_cons_self _ _, Or.inr h.symm⟩
          · exact Or.inr h
        · rintro (⟨q, hq, hc⟩ | h)
          · rcases List.mem_cons.mp hq with hq | hq
            · subst hq
              rcases hc with hc | hc
              · exact Or.inr (Or.inl hc.symm)
              · exact Or.inr (Or.inr (Or.inl hc.symm))
            · exact Or.inl ⟨q, hq, hc⟩
          · exact Or.inr (Or.inr (Or.inr h))
  rw [buildGraph, main]
  simp [Graph.vertices]

lemma nodup_vertices_buildGraph (ps : List (Nat × Nat)) :
    (buildGraph ps).vertices.Nodup := by
  have main : ∀ (l : List (Nat × Nat)) (g : Graph),
      g.vertices.Nodup → (l.foldl (fun g p => g.add_pair p.1 p.2) g).vertices.Nodup := by
    intro l
    induction l with
    | nil => intro g h; simpa using h
    | cons p rest ih =>
        intro g h
        rw [List.foldl_cons]
        exact ih _ (nodup_vertices_add_pair _ _ _ h)
  exact main ps ⟨[]⟩ (by simp [Graph.vertices])

lemma values_nonempty_buildGraph (ps : List (Nat × Nat)) :
    ∀ p ∈ (buildGraph ps).adj, (p.2 : Finset Nat).Nonempty := by
  have step : ∀ (m : List (Nat × Finset Nat)) (a b : Nat),
      (∀ p ∈ m, (p.2 : Finset Nat).Nonempty) →
        ∀ p ∈ addKey m a b, (p.2 : Finset Nat).Nonempty := by
    intro m a b hm
    induction m with
    | nil =>
        intro p hp
        rw [addKey, List.mem_singleton] at hp
        subst hp
        exact Finset.singleton_nonempty _
    | cons q rest ih =>
        obtain ⟨k, s⟩ := q
        intro p hp
        by_cases hk : k = a
        · rw [addKey, if_pos hk, List.mem_cons] at hp
          rcases hp with hp | hp
          · subst hp; exact Finset.insert_nonempty _ _
          · exact hm p (List.mem_cons_of_mem _ hp)
        · rw [addKey, if_neg hk, List.mem_cons] at hp
          rcases hp with hp | hp
          · subst hp; exact hm _ (List.mem_cons_self _ _)
          · exact ih (fun q hq => hm q (List.mem_cons_of_mem _ hq)) p hp
  have main : ∀ (l : List (Nat × Nat)) (g : Graph),
      (∀ p ∈ g.adj, (p.2 : Finset Nat).Nonempty) →
        ∀ p ∈ (l.foldl (fun g p => g.add_pair p.1 p.2) g).adj,
          (p.2 : Finset Nat).Nonempty := by
    intro l
    induction l with
    | nil => intro g h; simpa using h
    | cons q rest ih =>
        intro g h
        rw [List.foldl_cons]
        exact ih _ (step _ _ _ (step _ _ _ h))
  exact main ps ⟨[]⟩ (by simp)

/-! ## C5: self-loops and irreflexivity of graph construction -/

/-- C5 counterexample: `add_pair(0, 0)` does not reject or ignore the
self-loop; it makes 0 a member of its own neighbor set. -/
theorem add_pair_self_loop_cex :
    0 ∈ neighborsD (buildGraph [(0, 0)]) 0 := by decide

/-- C5 (amended): `add_pair` does not guard against `u = v` (a call
`add_pair(u, u)` records `u` as its own neighbor), but after any sequence of
`add_pair` calls whose endpoints are distinct, no vertex is a member of its
own neighbor set. -/
theorem add_pair_distinct_irreflexive (ps : List (Nat × Nat))
    (h : ∀ p ∈ ps, p.1 ≠ p.2) (v : Nat) :
    v ∉ neighborsD (buildGraph ps) v := by
  intro hv
  rw [mem_neighborsD_buildGraph] at hv
  obtain ⟨p, hp, hc⟩ := hv
  rcases hc with hc | hc <;> exact h p hp (hc.1.trans hc.2.symm)

/-- Witness for C5's amended theorem at a concrete input. -/
theorem add_pair_distinct_irreflexive_witness :
    0 ∉ neighborsD (buildGraph [(0, 1)]) 0 :=
  add_pair_distinct_irreflexive [(0, 1)] (by decide) 0

/-! ## C6: symmetry of the adjacency relation -/

/-- C6: after every sequence of `add_pair(u, v)` calls with distinct
endpoints, the relation is symmetric: `v ∈ neighbors(u) ⇔ u ∈ neighbors(v)`
for distinct `u`, `v`.  (The two distinctness hypotheses are the claim's; the
proof never needs them, since `add_pair` always inserts both directions.) -/
theorem add_pair_symmetric (ps : List (Nat × Nat))
    (h : ∀ p ∈ ps, p.1 ≠ p.2) (u v : Nat) (huv : u ≠ v) :
    v ∈ neighborsD (buildGraph ps) u ↔ u ∈ neighborsD (buildGraph ps) v := by
  rw [mem_neighborsD_buildGraph, mem_neighborsD_buildGraph]
  constructor <;> rintro ⟨p, hp, hc⟩ <;> exact ⟨p, hp, by tauto⟩

/-- Witness for C6 at a concrete input. -/
theorem add_pair_symmetric_witness :
    1 ∈ neighborsD (buildGraph [(0, 1)]) 0 ↔ 0 ∈ neighborsD (buildGraph [(0, 1)]) 1 :=
  add_pair_symmetric [(0, 1)] (by decide) 0 1 (by decide)

/-! ## C7: NotFound behavior of neighbors and degree -/

/-- C7: `neighbors(v)` and `degree(v)` fail with the NotFound condition
(modelled by `none`) exactly when `v` was never an endpoint of an `add_pair`
call; otherwise `neighbors(v)` returns `v`'s neighbor set and `degree(v)`
its cardinality. -/
theorem neighbors_degree_not_found (ps : List (Nat × Nat)) (v : Nat) :
    ((buildGraph ps).neighbors v = none ↔ ¬ ∃ p ∈ ps, p.1 = v ∨ p.2 = v) ∧
      ((buildGraph ps).degree v = none ↔ ¬ ∃ p ∈ ps, p.1 = v ∨ p.2 = v) ∧
      ∀ s, (buildGraph ps).neighbors v = some s →
        (buildGraph ps).degree v = some s.card := by
  have hn : (buildGraph ps).neighbors v = none ↔ ¬ ∃ p ∈ ps, p.1 = v ∨ p.2 = v := by
    rw [Graph.neighbors, lookupNb_eq_none]
    rw [show (buildGraph ps).adj.map Prod.fst = (buildGraph ps).vertices from rfl]
    rw [mem_vertices_buildGraph]
  refine ⟨hn, ?_, ?_⟩
  · rw [← hn, Graph.degree, Option.map_eq_none']
  · intro s hs
    rw [Graph.degree, hs, Option.map_some']

/-! ## C10: every represented vertex has at least one neighbor -/

/-- C10: after any sequence of `add_pair` calls, every vertex of `vertices()`
has a nonempty neighbor set, so `degree(v) ≥ 1`: a truly isolated vertex
cannot be represented through the construction interface. -/
theorem vertices_have_neighbors (ps : List (Nat × Nat)) (v : Nat)
    (hv : v ∈ (buildGraph ps).vertices) :
    ∃ s, (buildGraph ps).neighbors v = some s ∧ s.Nonempty ∧
      (buildGraph ps).degree v = some s.card ∧ 1 ≤ s.card := by
  obtain ⟨s, hs⟩ : ∃ s, lookupNb (buildGraph ps).adj v = some s := by
    rcases ho : lookupNb (buildGraph ps).adj v with _ | s
    · rw [lookupNb_eq_none] at ho
      exact absurd hv ho
    · exact ⟨s, rfl⟩
  have hmem := lookupNb_mem _ _ _ hs
  have hne : s.Nonempty := values_nonempty_buildGraph ps (v, s) hmem
  refine ⟨s, hs, hne, ?_, Finset.card_pos.mpr hne⟩
  rw [Graph.degree, Graph.neighbors, hs, Option.map_some']

/-- Witness for C10 at a concrete input. -/
theorem vertices_have_neighbors_witness :
    ∃ s, (buildGraph [(0, 1)]).neighbors 0 = some s ∧ s.Nonempty ∧
      (buildGraph [(0, 1)]).degree 0 = some s.card ∧ 1 ≤ s.card :=
  vertices_have_neighbors [(0, 1)] 0 (by decide)

/-! ## C1: what degeneracy_ordering actually computes -/

/-- C1: the list returned by `degeneracy_ordering()` on the star-plus-triangle
graph `gStar` is the static sort `[1, 2, 3, 4, 5, 6, 0]` of the vertices by
full-graph degree, and it violates the min-degree peeling property claimed of
it: at position 3 the vertex 4 has residual degree 2 among the not-yet-placed
vertices `[4, 5, 6, 0]` while vertex 0 has residual degree 0 there. -/
theorem degeneracy_ordering_not_peeling :
    gStar.degeneracy_ordering = [1, 2, 3, 4, 5, 6, 0] ∧
      ¬ IsMinDegPeeling gStar gStar.degeneracy_ordering := by
  constructor
  · decide
  · decide

/-! ## Bron-Kerbosch correctness -/

lemma bk_succ (g : Graph) (f : Nat) (R P X : Finset Nat) :
    bk g (f + 1) R P X =
      (if P = ∅ ∧ X = ∅ then [R] else []) ++
        bkLoopF (bk g f) g R (finsetAscList P) P X := rfl

lemma bkLoopF_cons (next : Finset Nat → Finset Nat → Finset Nat → List (Finset Nat))
    (g : Graph) (R : Finset Nat) (v : Nat) (rest : List Nat) (P X : Finset Nat) :
    bkLoopF next g R (v :: rest) P X =
      next (insert v R) (P ∩ neighborsD g v) (X ∩ neighborsD g v) ++
        bkLoopF next g R rest (P.erase v) (insert v X) := rfl

lemma finsetAscList_nodup (P : Finset Nat) : (finsetAscList P).Nodup :=
  (List.nodup_range _).filter _

lemma finsetAscList_toFinset (P : Finset Nat) : (finsetAscList P).toFinset = P := by
  ext x
  simp only [finsetAscList, List.mem_toFinset, List.mem_filter, List.mem_range,
    decide_eq_true_eq]
  constructor
  · exact fun h => h.2
  · intro hx
    exact ⟨Nat.lt_succ_of_le (Finset.le_sup (f := id) hx), hx⟩

lemma countClique_append (S : Finset Nat) (l₁ l₂ : List (Finset Nat)) :
    countClique S (l₁ ++ l₂) = countClique S l₁ + countClique S l₂ := by
  induction l₁ with
  | nil => simp [countClique]
  | cons T rest ih => simp [countClique, ih]; omega

lemma countClique_singleton (S R : Finset Nat) :
    countClique S [R] = if R = S then 1 else 0 := by
  simp [countClique]

lemma countClique_pos_iff (S : Finset Nat) (l : List (Finset Nat)) :
    0 < countClique S l ↔ S ∈ l := by
  induction l with
  | nil => simp [countClique]
  | cons T rest ih =>
      by_cases h : T = S
      · subst h; simp [countClique, List.mem_cons]
      · rw [List.mem_cons]
        simp only [countClique, if_neg h, Nat.zero_add]
        rw [ih]
        constructor
        · exact fun hh => Or.inr hh
        · rintro (hh | hh)
          · exact absurd hh.symm h
          · exact hh

lemma isMaxClique_of_BKInv_empty (g : Graph) (R : Finset Nat)
    (inv : BKInv g R ∅ ∅) : IsMaxClique g R := by
  refine ⟨inv.nonempty, inv.subVerts, inv.clique, ?_⟩
  intro w hw hwR hall
  have := inv.complete w hw hwR hall
  simp at this

lemma not_isMaxClique_of_mem_PX (g : Graph) (R P X : Finset Nat) (w : Nat)
    (inv : BKInv g R P X) (hw : w ∈ P ∪ X) : ¬ IsMaxClique g R := by
  intro hmax
  exact hmax.2.2.2 w (inv.adjAll w hw).1 (inv.disj w hw) (inv.adjAll w hw).2

lemma inter_union_inter (P X Nv : Finset Nat) :
    (P ∩ Nv) ∪ (X ∩ Nv) = (P ∪ X) ∩ Nv := by
  ext x
  simp only [Finset.mem_union, Finset.mem_inter]
  tauto

lemma erase_union_insert (P X : Finset Nat) (v : Nat) (hv : v ∈ P) :
    (P.erase v) ∪ (insert v X) = P ∪ X := by
  ext x
  by_cases hx : x = v
  · subst hx
    simp [hv]
  · simp [Finset.mem_union, Finset.mem_erase, Finset.mem_insert, hx]

lemma BKInv_step (g : Graph)
    (hsym : ∀ u v, Adj g u v → Adj g v u) (hirr : ∀ v, ¬ Adj g v v)
    (R P X : Finset Nat) (v : Nat) (hv : v ∈ P) (inv : BKInv g R P X) :
    BKInv g (insert v R) (P ∩ neighborsD g v) (X ∩ neighborsD g v) := by
  have hvPX : v ∈ P ∪ X := Finset.mem_union_left _ hv
  have hvadj : ∀ r ∈ R, Adj g r v := (inv.adjAll v hvPX).2
  refine ⟨Finset.insert_nonempty _ _, ?_, ?_, ?_, ?_, ?_⟩
  · intro a ha b hb hab
    rcases Finset.mem_insert.mp ha with ha1 | ha2
    · rcases Finset.mem_insert.mp hb with hb1 | hb2
      · exact absurd (ha1.trans hb1.symm) hab
      · rw [ha1]
        exact hsym b v (hvadj b hb2)
    · rcases Finset.mem_insert.mp hb with hb1 | hb2
      · rw [hb1]
        exact hvadj a ha2
      · exact inv.clique a ha2 b hb2 hab
  · exact Finset.insert_subset (inv.adjAll v hvPX).1 inv.subVerts
  · intro w hw
    rw [inter_union_inter] at hw
    have hw1 := Finset.mem_inter.mp hw
    refine ⟨(inv.adjAll w hw1.1).1, ?_⟩
    intro r hr
    rcases Finset.mem_insert.mp hr with rfl | hr
    · exact hw1.2
    · exact (inv.adjAll w hw1.1).2 r hr
  · intro w hw hwR hall
    rw [inter_union_inter]
    rw [Finset.mem_inter]
    constructor
    · refine inv.complete w hw (fun hc => hwR (Finset.mem_insert_of_mem hc)) ?_
      intro r hr
      exact hall r (Finset.mem_insert_of_mem hr)
    · exact hall v (Finset.mem_insert_self _ _)
  · intro w hw
    rw [inter_union_inter] at hw
    have hw1 := Finset.mem_inter.mp hw
    intro hc
    rcases Finset.mem_insert.mp hc with rfl | hc
    · exact hirr w hw1.2
    · exact inv.disj w hw1.1 hc

lemma BKInv_tail (g : Graph) (R P X : Finset Nat) (v : Nat) (hv : v ∈ P)
    (inv : BKInv g R P X) : BKInv g R (P.erase v) (insert v X) := by
  refine ⟨inv.nonempty, inv.clique, inv.subVerts, ?_, ?_, ?_⟩ <;>
    rw [erase_union_insert P X v hv]
  · exact inv.adjAll
  · exact inv.complete
  · exact inv.disj

lemma bkLoopF_count (g : Graph)
    (hsym : ∀ u v, Adj g u v → Adj g v u) (hirr : ∀ v, ¬ Adj g v v)
    (fuel : Nat)
    (ih : ∀ R P X Q, P.card < fuel → BKInv g R P X →
      countClique Q (bk g fuel R P X) =
        if IsMaxClique g Q ∧ R ⊆ Q ∧ Q ⊆ R ∪ P then 1 else 0) :
    ∀ (vs : List Nat) (R P X Q : Finset Nat),
      vs.Nodup → P = vs.toFinset → P.card ≤ fuel → BKInv g R P X →
      countClique Q (bkLoopF (bk g fuel) g R vs P X) =
        if IsMaxClique g Q ∧ R ⊆ Q ∧ Q ⊆ R ∪ P ∧ Q ≠ R then 1 else 0 := by
  intro vs
  induction vs with
  | nil =>
      intro R P X Q _hnd hP _hcard _inv
      have hPe : P = ∅ := by simpa using hP
      have hfalse : ¬(IsMaxClique g Q ∧ R ⊆ Q ∧ Q ⊆ R ∪ P ∧ Q ≠ R) := by
        rintro ⟨_hmax, hRQ, hQsub, hne⟩
        rw [hPe, Finset.union_empty] at hQsub
        exact hne (Finset.Subset.antisymm hQsub hRQ)
      rw [if_neg hfalse]
      rfl
  | cons v rest IH =>
      intro R P X Q hnd hP hcard inv
      have hvrest : v ∉ rest := (List.nodup_cons.mp hnd).1
      have hndrest : rest.Nodup := (List.nodup_cons.mp hnd).2
      have hv : v ∈ P := by rw [hP]; simp
      have hPcard : P.card = rest.length + 1 := by
        rw [hP, List.toFinset_card_of_nodup hnd, List.length_cons]
      have hPerase : P.erase v = rest.toFinset := by
        rw [hP, List.toFinset_cons,
          Finset.erase_insert (by simpa using hvrest)]
      have hvR : v ∉ R := inv.disj v (Finset.mem_union_left _ hv)
      have hsub : P ∩ neighborsD g v ⊆ P.erase v := by
        intro x hx
        have hx1 := Finset.mem_inter.mp hx
        refine Finset.mem_erase.mpr ⟨?_, hx1.1⟩
        intro hxv
        rw [hxv] at hx1
        exact hirr v hx1.2
      have hcard1 : (P ∩ neighborsD g v).card < fuel := by
        have h1 : (P ∩ neighborsD g v).card ≤ (P.erase v).card :=
          Finset.card_le_card hsub
        have h2 : (P.erase v).card = P.card - 1 := Finset.card_erase_of_mem hv
        omega
      have hcard2 : (P.erase v).card ≤ fuel := by
        have h2 : (P.erase v).card = P.card - 1 := Finset.card_erase_of_mem hv
        omega
      rw [bkLoopF_cons, countClique_append]
      rw [ih (insert v R) (P ∩ neighborsD g v) (X ∩ neighborsD g v) Q hcard1
        (BKInv_step g hsym hirr R P X v hv inv)]
      rw [IH R (P.erase v) (insert v X) Q hndrest hPerase hcard2
        (BKInv_tail g R P X v hv inv)]
      by_cases hvQ : v ∈ Q
      · have hc2 : ¬(IsMaxClique g Q ∧ R ⊆ Q ∧ Q ⊆ R ∪ P.erase v ∧ Q ≠ R) := by
          rintro ⟨_, _, hQsub, _⟩
          rcases Finset.mem_union.mp (hQsub hvQ) with hc | hc
          · exact hvR hc
          · exact (Finset.mem_erase.mp hc).1 rfl
        rw [if_neg hc2, Nat.add_zero]
        have hcond : (IsMaxClique g Q ∧ insert v R ⊆ Q ∧
            Q ⊆ insert v R ∪ (P ∩ neighborsD g v)) ↔
            (IsMaxClique g Q ∧ R ⊆ Q ∧ Q ⊆ R ∪ P ∧ Q ≠ R) := by
          constructor
          · rintro ⟨hmax, hiR, hQsub⟩
            refine ⟨hmax, fun x hx => hiR (Finset.mem_insert_of_mem hx), ?_, ?_⟩
            · intro x hx
              rcases Finset.mem_union.mp (hQsub hx) with hc | hc
              · rcases Finset.mem_insert.mp hc with hc1 | hc2
                · rw [hc1]; exact Finset.mem_union_right _ hv
                · exact Finset.mem_union_left _ hc2
              · exact Finset.mem_union_right _ (Finset.mem_inter.mp hc).1
            · intro hQR
              rw [hQR] at hvQ
              exact hvR hvQ
          · rintro ⟨hmax, hRQ, hQsub, _hne⟩
            refine ⟨hmax, Finset.insert_subset hvQ hRQ, ?_⟩
            intro x hx
            by_cases hxv : x = v
            · rw [hxv]
              exact Finset.mem_union_left _ (Finset.mem_insert_self _ _)
            · by_cases hxR : x ∈ R
              · exact Finset.mem_union_left _ (Finset.mem_insert_of_mem hxR)
              · have hxP : x ∈ P := by
                  rcases Finset.mem_union.mp (hQsub hx) with hc | hc
                  · exact absurd hc hxR
                  · exact hc
                have hadj : Adj g v x :=
                  hmax.2.2.1 v hvQ x hx (fun hh => hxv hh.symm)
                exact Finset.mem_union_right _
                  (Finset.mem_inter.mpr ⟨hxP, hadj⟩)
        rw [if_congr hcond rfl rfl]
      · have hc1 : ¬(IsMaxClique g Q ∧ insert v R ⊆ Q ∧
            Q ⊆ insert v R ∪ (P ∩ neighborsD g v)) := by
          rintro ⟨_, hiR, _⟩
          exact hvQ (hiR (Finset.mem_insert_self _ _))
        rw [if_neg hc1, Nat.zero_add]
        have hcond : (IsMaxClique g Q ∧ R ⊆ Q ∧ Q ⊆ R ∪ P.erase v ∧ Q ≠ R) ↔
            (IsMaxClique g Q ∧ R ⊆ Q ∧ Q ⊆ R ∪ P ∧ Q ≠ R) := by
          constructor
          · rintro ⟨hmax, hRQ, hQsub, hne⟩
            refine ⟨hmax, hRQ, ?_, hne⟩
            intro x hx
            rcases Finset.mem_union.mp (hQsub hx) with hc | hc
            · exact Finset.mem_union_left _ hc
            · exact Finset.mem_union_right _ (Finset.mem_erase.mp hc).2
          · rintro ⟨hmax, hRQ, hQsub, hne⟩
            refine ⟨hmax, hRQ, ?_, hne⟩
            intro x hx
            rcases Finset.mem_union.mp (hQsub hx) with hc | hc
            · exact Finset.mem_union_left _ hc
            · refine Finset.mem_union_right _ (Finset.mem_erase.mpr ⟨?_, hc⟩)
              intro hxv
              rw [hxv] at hx
              exact hvQ hx
        rw [if_congr hcond rfl rfl]

lemma bk_count (g : Graph)
    (hsym : ∀ u v, Adj g u v → Adj g v u) (hirr : ∀ v, ¬ Adj g v v) :
    ∀ (fuel : Nat) (R P X Q : Finset Nat), P.card < fuel → BKInv g R P X →
      countClique Q (bk g fuel R P X) =
        if IsMaxClique g Q ∧ R ⊆ Q ∧ Q ⊆ R ∪ P then 1 else 0 := by
  intro fuel
  induction fuel with
  | zero => intro R P X Q hcard _inv; exact absurd hcard (Nat.not_lt_zero _)
  | succ f ihf =>
      intro R P X Q hcard inv
      rw [bk_succ, countClique_append]
      rw [bkLoopF_count g hsym hirr f ihf (finsetAscList P) R P X Q
        (finsetAscList_nodup P) (finsetAscList_toFinset P).symm
        (Nat.lt_succ_iff.mp hcard) inv]
      by_cases hbase : P = ∅ ∧ X = ∅
      · obtain ⟨hPe, hXe⟩ := hbase
        subst hPe; subst hXe
        rw [if_pos ⟨rfl, rfl⟩, countClique_singleton]
        rw [if_neg (show ¬(IsMaxClique g Q ∧ R ⊆ Q ∧ Q ⊆ R ∪ (∅ : Finset Nat) ∧
            Q ≠ R) from by
          rintro ⟨_, hRQ, hQsub, hne⟩
          rw [Finset.union_empty] at hQsub
          exact hne (Finset.Subset.antisymm hQsub hRQ)), Nat.add_zero]
        have hmaxR : IsMaxClique g R := isMaxClique_of_BKInv_empty g R inv
        by_cases hQR : Q = R
        · subst hQR
          rw [if_pos rfl,
            if_pos ⟨hmaxR, Finset.Subset.refl _, by rw [Finset.union_empty]⟩]
        · rw [if_neg (fun hh => hQR hh.symm),
            if_neg (show ¬(IsMaxClique g Q ∧ R ⊆ Q ∧
              Q ⊆ R ∪ (∅ : Finset Nat)) from by
            rintro ⟨_, hRQ, hQsub⟩
            rw [Finset.union_empty] at hQsub
            exact hQR (Finset.Subset.antisymm hQsub hRQ))]
      · rw [if_neg hbase,
          show countClique Q ([] : List (Finset Nat)) = 0 from rfl, Nat.zero_add]
        have hex : ∃ w, w ∈ P ∪ X := by
          by_contra hno
          push_neg at hno
          refine hbase ⟨?_, ?_⟩
          · exact Finset.eq_empty_iff_forall_not_mem.mpr
              (fun x hx => hno x (Finset.mem_union_left _ hx))
          · exact Finset.eq_empty_iff_forall_not_mem.mpr
              (fun x hx => hno x (Finset.mem_union_right _ hx))
        obtain ⟨w, hw⟩ := hex
        have hnotmax : ¬ IsMaxClique g R := not_isMaxClique_of_mem_PX g R P X w inv hw
        by_cases hQR : Q = R
        · rw [if_neg (show ¬(IsMaxClique g Q ∧ R ⊆ Q ∧ Q ⊆ R ∪ P ∧ Q ≠ R) from by
              rintro ⟨hmax, _⟩
              rw [hQR] at hmax
              exact hnotmax hmax),
            if_neg (show ¬(IsMaxClique g Q ∧ R ⊆ Q ∧ Q ⊆ R ∪ P) from by
              rintro ⟨hmax, _⟩
              rw [hQR] at hmax
              exact hnotmax hmax)]
        · have hcond : (IsMaxClique g Q ∧ R ⊆ Q ∧ Q ⊆ R ∪ P ∧ Q ≠ R) ↔
              (IsMaxClique g Q ∧ R ⊆ Q ∧ Q ⊆ R ∪ P) := by
            constructor
            · rintro ⟨a, b, c, _⟩; exact ⟨a, b, c⟩
            · rintro ⟨a, b, c⟩; exact ⟨a, b, c, hQR⟩
          rw [if_congr hcond rfl rfl]

lemma maxCliquesAux_cons (g : Graph) (fuel : Nat) (v : Nat) (rest : List Nat)
    (possible excluded : Finset Nat) :
    maxCliquesAux g fuel (v :: rest) possible excluded =
      bk g fuel (insert v ∅) (possible ∩ neighborsD g v)
          (excluded ∩ neighborsD g v) ++
        maxCliquesAux g fuel rest (possible.erase v) (insert v excluded) := rfl

lemma buildGraph_symm (ps : List (Nat × Nat)) :
    ∀ u v, Adj (buildGraph ps) u v → Adj (buildGraph ps) v u := by
  intro u v huv
  have h1 : v ∈ neighborsD (buildGraph ps) u := huv
  rw [mem_neighborsD_buildGraph] at h1
  show u ∈ neighborsD (buildGraph ps) v
  rw [mem_neighborsD_buildGraph]
  obtain ⟨p, hp, hc⟩ := h1
  exact ⟨p, hp, by tauto⟩

lemma buildGraph_irrefl (ps : List (Nat × Nat)) (h : ∀ p ∈ ps, p.1 ≠ p.2) :
    ∀ v, ¬ Adj (buildGraph ps) v v := by
  intro v hv
  have h1 : v ∈ neighborsD (buildGraph ps) v := hv
  rw [mem_neighborsD_buildGraph] at h1
  obtain ⟨p, hp, hc⟩ := h1
  rcases hc with hc | hc <;> exact h p hp (hc.1.trans hc.2.symm)

lemma maxCliquesAux_count (g : Graph)
    (hsym : ∀ u v, Adj g u v → Adj g v u) (hirr : ∀ v, ¬ Adj g v v)
    (fuel : Nat) (hfuel : (vertsFinset g).card < fuel) :
    ∀ (vs : List Nat) (possible excluded Q : Finset Nat),
      vs.Nodup → possible = vs.toFinset → possible ∪ excluded = vertsFinset g →
      countClique Q (maxCliquesAux g fuel vs possible excluded) =
        if IsMaxClique g Q ∧ Q ⊆ possible then 1 else 0 := by
  intro vs
  induction vs with
  | nil =>
      intro possible excluded Q _hnd hP _hunion
      have hPe : possible = ∅ := by simpa using hP
      have hfalse : ¬(IsMaxClique g Q ∧ Q ⊆ possible) := by
        rintro ⟨hmax, hQsub⟩
        rw [hPe] at hQsub
        obtain ⟨x, hx⟩ := hmax.1
        exact absurd (hQsub hx) (Finset.not_mem_empty x)
      rw [if_neg hfalse]
      rfl
  | cons v rest IH =>
      intro possible excluded Q hnd hP hunion
      have hvrest : v ∉ rest := (List.nodup_cons.mp hnd).1
      have hndrest : rest.Nodup := (List.nodup_cons.mp hnd).2
      have hv : v ∈ possible := by rw [hP]; simp
      have hPerase : possible.erase v = rest.toFinset := by
        rw [hP, List.toFinset_cons,
          Finset.erase_insert (by simpa using hvrest)]
      have hins : possible ⊆ vertsFinset g := by
        rw [← hunion]
        exact Finset.subset_union_left
      have hvvert : v ∈ vertsFinset g := hins hv
      have inv : BKInv g (insert v ∅) (possible ∩ neighborsD g v)
          (excluded ∩ neighborsD g v) := by
        refine ⟨Finset.insert_nonempty _ _, ?_, ?_, ?_, ?_, ?_⟩
        · intro a ha b hb hab
          simp only [Finset.mem_insert, Finset.not_mem_empty, or_false] at ha hb
          rw [ha, hb] at hab
          exact absurd rfl hab
        · intro a ha
          simp only [Finset.mem_insert, Finset.not_mem_empty, or_false] at ha
          rw [ha]
          exact hvvert
        · intro w hw
          rw [inter_union_inter] at hw
          have hw1 := Finset.mem_inter.mp hw
          refine ⟨by rw [← hunion]; exact hw1.1, ?_⟩
          intro r hr
          simp only [Finset.mem_insert, Finset.not_mem_empty, or_false] at hr
          rw [hr]
          exact hw1.2
        · intro w hw _hwR hall
          rw [inter_union_inter, Finset.mem_inter]
          refine ⟨by rw [hunion]; exact hw, ?_⟩
          exact hall v (Finset.mem_insert_self _ _)
        · intro w hw
          rw [inter_union_inter] at hw
          have hw2 := (Finset.mem_inter.mp hw).2
          intro hc
          simp only [Finset.mem_insert, Finset.not_mem_empty, or_false] at hc
          rw [hc] at hw2
          exact hirr v hw2
      have hcardP : (possible ∩ neighborsD g v).card < fuel := by
        have hsubv : possible ∩ neighborsD g v ⊆ vertsFinset g :=
          fun x hx => hins (Finset.mem_inter.mp hx).1
        exact lt_of_le_of_lt (Finset.card_le_card hsubv) hfuel
      rw [maxCliquesAux_cons, countClique_append]
      rw [bk_count g hsym hirr fuel (insert v ∅) _ _ Q hcardP inv]
      rw [IH (possible.erase v) (insert v excluded) Q hndrest hPerase
        (by rw [erase_union_insert possible excluded v hv, hunion])]
      by_cases hvQ : v ∈ Q
      · rw [if_neg (show ¬(IsMaxClique g Q ∧ Q ⊆ possible.erase v) from by
          rintro ⟨_, hQsub⟩
          exact (Finset.mem_erase.mp (hQsub hvQ)).1 rfl), Nat.add_zero]
        have hcond : (IsMaxClique g Q ∧ insert v ∅ ⊆ Q ∧
            Q ⊆ insert v ∅ ∪ (possible ∩ neighborsD g v)) ↔
            (IsMaxClique g Q ∧ Q ⊆ possible) := by
          constructor
          · rintro ⟨hmax, _, hQsub⟩
            refine ⟨hmax, ?_⟩
            intro x hx
            rcases Finset.mem_union.mp (hQsub hx) with hc | hc
            · simp only [Finset.mem_insert, Finset.not_mem_empty, or_false] at hc
              rw [hc]
              exact hv
            · exact (Finset.mem_inter.mp hc).1
          · rintro ⟨hmax, hQsub⟩
            refine ⟨hmax, ?_, ?_⟩
            · intro x hx
              simp only [Finset.mem_insert, Finset.not_mem_empty, or_false] at hx
              rw [hx]
              exact hvQ
            · intro x hx
              by_cases hxv : x = v
              · rw [hxv]
                exact Finset.mem_union_left _ (Finset.mem_insert_self _ _)
              · have hadj : Adj g v x :=
                  hmax.2.2.1 v hvQ x hx (fun hh => hxv hh.symm)
                exact Finset.mem_union_right _
                  (Finset.mem_inter.mpr ⟨hQsub hx, hadj⟩)
        rw [if_congr hcond rfl rfl]
      · rw [if_neg (show ¬(IsMaxClique g Q ∧ insert v ∅ ⊆ Q ∧
            Q ⊆ insert v ∅ ∪ (possible ∩ neighborsD g v)) from by
          rintro ⟨_, hiR, _⟩
          exact hvQ (hiR (Finset.mem_insert_self _ _))), Nat.zero_add]
        have hcond : (IsMaxClique g Q ∧ Q ⊆ possible.erase v) ↔
            (IsMaxClique g Q ∧ Q ⊆ possible) := by
          constructor
          · rintro ⟨hmax, hQsub⟩
            exact ⟨hmax, fun x hx => (Finset.mem_erase.mp (hQsub hx)).2⟩
          · rintro ⟨hmax, hQsub⟩
            refine ⟨hmax, fun x hx => Finset.mem_erase.mpr ⟨?_, hQsub hx⟩⟩
            intro hxv
            rw [hxv] at hx
            exact hvQ hx
        rw [if_congr hcond rfl rfl]

lemma countClique_max_cliques (ps : List (Nat × Nat))
    (h : ∀ p ∈ ps, p.1 ≠ p.2) (Q : Finset Nat) :
    countClique Q (buildGraph ps).max_cliques =
      if IsMaxClique (buildGraph ps) Q then 1 else 0 := by
  have hperm : (buildGraph ps).degeneracy_ordering.Perm (buildGraph ps).vertices :=
    List.perm_insertionSort _ _
  have hnodup : (buildGraph ps).degeneracy_ordering.Nodup :=
    hperm.nodup_iff.mpr (nodup_vertices_buildGraph ps)
  have htoF : vertsFinset (buildGraph ps) =
      (buildGraph ps).degeneracy_ordering.toFinset := by
    apply Finset.ext
    intro x
    rw [List.mem_toFinset, hperm.mem_iff, vertsFinset, List.mem_toFinset]
  have hfuel : (vertsFinset (buildGraph ps)).card <
      (buildGraph ps).vertices.length + 1 :=
    Nat.lt_succ_of_le (List.toFinset_card_le _)
  have hmain := maxCliquesAux_count (buildGraph ps) (buildGraph_symm ps)
    (buildGraph_irrefl ps h) ((buildGraph ps).vertices.length + 1) hfuel
    (buildGraph ps).degeneracy_ordering (vertsFinset (buildGraph ps)) ∅ Q
    hnodup htoF (Finset.union_empty _)
  rw [show (buildGraph ps).max_cliques = maxCliquesAux (buildGraph ps)
      ((buildGraph ps).vertices.length + 1) (buildGraph ps).degeneracy_ordering
      (vertsFinset (buildGraph ps)) ∅ from rfl, hmain]
  have hcond : (IsMaxClique (buildGraph ps) Q ∧ Q ⊆ vertsFinset (buildGraph ps)) ↔
      IsMaxClique (buildGraph ps) Q :=
    ⟨fun hh => hh.1, fun hh => ⟨hh, hh.2.1⟩⟩
  rw [if_congr hcond rfl rfl]

lemma isMaxClique_of_mem_max_cliques (ps : List (Nat × Nat))
    (h : ∀ p ∈ ps, p.1 ≠ p.2) (C : Finset Nat)
    (hC : C ∈ (buildGraph ps).max_cliques) : IsMaxClique (buildGraph ps) C := by
  have hpos : 0 < countClique C (buildGraph ps).max_cliques :=
    (countClique_pos_iff _ _).mpr hC
  rw [countClique_max_cliques ps h C] at hpos
  by_cases hmax : IsMaxClique (buildGraph ps) C
  · exact hmax
  · rw [if_neg hmax] at hpos
    exact absurd hpos (lt_irrefl 0)

/-! ## C2: every maximal clique is reported exactly once -/

/-- C2: for every graph built by `add_pair` calls with distinct endpoints,
every maximal clique `S` occurs exactly once in the output of `max_cliques()`
(count 1), and every set that is not a maximal clique does not occur at all
(count 0): no omissions and no duplicates. -/
theorem max_cliques_exactly_once (ps : List (Nat × Nat))
    (h : ∀ p ∈ ps, p.1 ≠ p.2) (S : Finset Nat) :
    countClique S (buildGraph ps).max_cliques =
      if IsMaxClique (buildGraph ps) S then 1 else 0 :=
  countClique_max_cliques ps h S

/-- Witness for C2: on the single-edge graph the maximal clique `{0, 1}` is
reported exactly once. -/
theorem max_cliques_exactly_once_witness :
    countClique {0, 1} (buildGraph [(0, 1)]).max_cliques = 1 := by
  rw [max_cliques_exactly_once [(0, 1)] (by decide) {0, 1}]
  decide

/-! ## C3: every reported set is a clique -/

/-- C3: for every graph built by `add_pair` calls with distinct endpoints,
every set `C` in the output of `max_cliques()` is a clique: any two distinct
members are neighbors. -/
theorem max_cliques_clique_valid (ps : List (Nat × Nat))
    (h : ∀ p ∈ ps, p.1 ≠ p.2) (C : Finset Nat)
    (hC : C ∈ (buildGraph ps).max_cliques) :
    ∀ u ∈ C, ∀ v ∈ C, u ≠ v → v ∈ neighborsD (buildGraph ps) u :=
  fun u hu v hv huv =>
    (isMaxClique_of_mem_max_cliques ps h C hC).2.2.1 u hu v hv huv

/-- Witness for C3 at a concrete input. -/
theorem max_cliques_clique_valid_witness :
    1 ∈ neighborsD (buildGraph [(0, 1)]) 0 :=
  max_cliques_clique_valid [(0, 1)] (by decide) {0, 1} (by decide)
    0 (by decide) 1 (by decide) (by decide)

/-! ## C4: every reported set is maximal -/

/-- C4: for every graph built by `add_pair` calls with distinct endpoints,
every set `C` in the output of `max_cliques()` is maximal: no vertex of the
graph outside `C` is adjacent to every vertex of `C`. -/
theorem max_cliques_maximal (ps : List (Nat × Nat))
    (h : ∀ p ∈ ps, p.1 ≠ p.2) (C : Finset Nat)
    (hC : C ∈ (buildGraph ps).max_cliques) (w : Nat)
    (hw : w ∈ vertsFinset (buildGraph ps)) (hwC : w ∉ C) :
    ¬ ∀ u ∈ C, w ∈ neighborsD (buildGraph ps) u :=
  (isMaxClique_of_mem_max_cliques ps h C hC).2.2.2 w hw hwC

/-- Witness for C4: on the path graph 0 - 1 - 2 the reported clique `{0, 1}`
is not extendable by the outside vertex 2. -/
theorem max_cliques_maximal_witness :
    ¬ ∀ u ∈ ({0, 1} : Finset Nat), 2 ∈ neighborsD (buildGraph [(0, 1), (1, 2)]) u :=
  max_cliques_maximal [(0, 1), (1, 2)] (by decide) {0, 1} (by decide)
    2 (by decide) (by decide)

/-! ## C9: the path graph A - B - C -/

lemma path_mem_verts (A B C : Nat) (x : Nat) :
    x ∈ vertsFinset (buildGraph [(A, B), (B, C)]) ↔ (x = A ∨ x = B ∨ x = C) := by
  rw [vertsFinset, List.mem_toFinset, mem_vertices_buildGraph]
  constructor
  · rintro ⟨p, hp, hc⟩
    rcases List.mem_cons.mp hp with rfl | hp
    · rcases hc with hc | hc
      · exact Or.inl hc.symm
      · exact Or.inr (Or.inl hc.symm)
    · rw [List.mem_singleton] at hp
      subst hp
      rcases hc with hc | hc
      · exact Or.inr (Or.inl hc.symm)
      · exact Or.inr (Or.inr hc.symm)
  · rintro (rfl | rfl | rfl)
    · exact ⟨(x, B), List.mem_cons_self _ _, Or.inl rfl⟩
    · exact ⟨(A, x), List.mem_cons_self _ _, Or.inr rfl⟩
    · exact ⟨(B, x), List.mem_cons_of_mem _ (List.mem_singleton_self _), Or.inr rfl⟩

lemma path_adj (A B C : Nat) (x w : Nat) :
    Adj (buildGraph [(A, B), (B, C)]) x w ↔
      ((x = A ∧ w = B) ∨ (x = B ∧ w = A) ∨ (x = B ∧ w = C) ∨ (x = C ∧ w = B)) := by
  show w ∈ neighborsD (buildGraph [(A, B), (B, C)]) x ↔ _
  rw [mem_neighborsD_buildGraph]
  constructor
  · rintro ⟨p, hp, hc⟩
    rcases List.mem_cons.mp hp with rfl | hp
    · rcases hc with ⟨h1, h2⟩ | ⟨h1, h2⟩
      · exact Or.inl ⟨h1.symm, h2.symm⟩
      · exact Or.inr (Or.inl ⟨h2.symm, h1.symm⟩)
    · rw [List.mem_singleton] at hp
      subst hp
      rcases hc with ⟨h1, h2⟩ | ⟨h1, h2⟩
      · exact Or.inr (Or.inr (Or.inl ⟨h1.symm, h2.symm⟩))
      · exact Or.inr (Or.inr (Or.inr ⟨h2.symm, h1.symm⟩))
  · rintro (⟨rfl, rfl⟩ | ⟨rfl, rfl⟩ | ⟨rfl, rfl⟩ | ⟨rfl, rfl⟩)
    · exact ⟨(x, w), List.mem_cons_self _ _, Or.inl ⟨rfl, rfl⟩⟩
    · exact ⟨(w, x), List.mem_cons_self _ _, Or.inr ⟨rfl, rfl⟩⟩
    · exact ⟨(x, w), List.mem_cons_of_mem _ (List.mem_singleton_self _),
        Or.inl ⟨rfl, rfl⟩⟩
    · exact ⟨(w, x), List.mem_cons_of_mem _ (List.mem_singleton_self _),
        Or.inr ⟨rfl, rfl⟩⟩

lemma path_maxClique_iff (A B C : Nat) (hAB : A ≠ B) (hBC : B ≠ C) (hAC : A ≠ C)
    (S : Finset Nat) :
    IsMaxClique (buildGraph [(A, B), (B, C)]) S ↔ (S = {A, B} ∨ S = {B, C}) := by
  constructor
  · intro hmax
    have hSsub : ∀ x ∈ S, x = A ∨ x = B ∨ x = C :=
      fun x hx => (path_mem_verts A B C x).mp (hmax.2.1 hx)
    have hnotAC : ¬(A ∈ S ∧ C ∈ S) := by
      rintro ⟨hA, hC⟩
      have hc := hmax.2.2.1 A hA C hC hAC
      rw [path_adj] at hc
      rcases hc with ⟨_, h2⟩ | ⟨h1, _⟩ | ⟨h1, _⟩ | ⟨h1, _⟩
      · exact hBC h2.symm
      · exact hAB h1
      · exact hAB h1
      · exact hAC h1
    by_cases hA : A ∈ S <;> by_cases hB : B ∈ S <;> by_cases hC : C ∈ S
    · exact absurd ⟨hA, hC⟩ hnotAC
    · refine Or.inl (Finset.ext fun x => ?_)
      rw [Finset.mem_insert, Finset.mem_singleton]
      constructor
      · intro hx
        rcases hSsub x hx with rfl | rfl | rfl
        · exact Or.inl rfl
        · exact Or.inr rfl
        · exact absurd hx hC
      · rintro (rfl | rfl)
        · exact hA
        · exact hB
    · exact absurd ⟨hA, hC⟩ hnotAC
    · exfalso
      refine hmax.2.2.2 B ((path_mem_verts A B C B).mpr (Or.inr (Or.inl rfl))) hB ?_
      intro u hu
      rcases hSsub u hu with h | h | h
      · rw [h]
        exact (path_adj A B C A B).mpr (Or.inl ⟨rfl, rfl⟩)
      · rw [h] at hu
        exact absurd hu hB
      · rw [h] at hu
        exact absurd hu hC
    · refine Or.inr (Finset.ext fun x => ?_)
      rw [Finset.mem_insert, Finset.mem_singleton]
      constructor
      · intro hx
        rcases hSsub x hx with rfl | rfl | rfl
        · exact absurd hx hA
        · exact Or.inl rfl
        · exact Or.inr rfl
      · rintro (rfl | rfl)
        · exact hB
        · exact hC
    · exfalso
      refine hmax.2.2.2 A ((path_mem_verts A B C A).mpr (Or.inl rfl)) hA ?_
      intro u hu
      rcases hSsub u hu with h | h | h
      · rw [h] at hu
        exact absurd hu hA
      · rw [h]
        exact (path_adj A B C B A).mpr (Or.inr (Or.inl ⟨rfl, rfl⟩))
      · rw [h] at hu
        exact absurd hu hC
    · exfalso
      refine hmax.2.2.2 B ((path_mem_verts A B C B).mpr (Or.inr (Or.inl rfl))) hB ?_
      intro u hu
      rcases hSsub u hu with h | h | h
      · rw [h] at hu
        exact absurd hu hA
      · rw [h] at hu
        exact absurd hu hB
      · rw [h]
        exact (path_adj A B C C B).mpr (Or.inr (Or.inr (Or.inr ⟨rfl, rfl⟩)))
    · exfalso
      obtain ⟨x, hx⟩ := hmax.1
      rcases hSsub x hx with rfl | rfl | rfl
      · exact hA hx
      · exact hB hx
      · exact hC hx
  · have hclq2 : ∀ a b : Nat, a ≠ b →
        Adj (buildGraph [(A, B), (B, C)]) a b →
        Adj (buildGraph [(A, B), (B, C)]) b a →
        a ∈ vertsFinset (buildGraph [(A, B), (B, C)]) →
        b ∈ vertsFinset (buildGraph [(A, B), (B, C)]) →
        IsClique (buildGraph [(A, B), (B, C)]) {a, b} := by
      intro a b hab hadj1 hadj2 _ _
      intro u hu w hw huw
      rcases Finset.mem_insert.mp hu with rfl | hu
      · rcases Finset.mem_insert.mp hw with rfl | hw
        · exact absurd rfl huw
        · rw [Finset.mem_singleton] at hw
          subst hw
          exact hadj1
      · rw [Finset.mem_singleton] at hu
        subst hu
        rcases Finset.mem_insert.mp hw with rfl | hw
        · exact hadj2
        · rw [Finset.mem_singleton] at hw
          subst hw
          exact absurd rfl huw
    rintro (rfl | rfl)
    · refine ⟨⟨A, Finset.mem_insert_self _ _⟩, ?_, ?_, ?_⟩
      · intro x hx
        rcases Finset.mem_insert.mp hx with h | hx
        · rw [h]
          exact (path_mem_verts A B C A).mpr (Or.inl rfl)
        · rw [Finset.mem_singleton] at hx
          rw [hx]
          exact (path_mem_verts A B C B).mpr (Or.inr (Or.inl rfl))
      · exact hclq2 A B hAB ((path_adj A B C A B).mpr (Or.inl ⟨rfl, rfl⟩))
          ((path_adj A B C B A).mpr (Or.inr (Or.inl ⟨rfl, rfl⟩)))
          ((path_mem_verts A B C A).mpr (Or.inl rfl))
          ((path_mem_verts A B C B).mpr (Or.inr (Or.inl rfl)))
      · intro w hwv hwS hall
        rcases (path_mem_verts A B C w).mp hwv with rfl | rfl | rfl
        · exact hwS (Finset.mem_insert_self _ _)
        · exact hwS (Finset.mem_insert_of_mem (Finset.mem_singleton_self _))
        · have hc := hall A (Finset.mem_insert_self _ _)
          rw [path_adj] at hc
          rcases hc with ⟨_, h2⟩ | ⟨h1, _⟩ | ⟨h1, _⟩ | ⟨h1, _⟩
          · exact hBC h2.symm
          · exact hAB h1
          · exact hAB h1
          · exact hAC h1
    · refine ⟨⟨B, Finset.mem_insert_self _ _⟩, ?_, ?_, ?_⟩
      · intro x hx
        rcases Finset.mem_insert.mp hx with h | hx
        · rw [h]
          exact (path_mem_verts A B C B).mpr (Or.inr (Or.inl rfl))
        · rw [Finset.mem_singleton] at hx
          rw [hx]
          exact (path_mem_verts A B C C).mpr (Or.inr (Or.inr rfl))
      · exact hclq2 B C hBC ((path_adj A B C B C).mpr (Or.inr (Or.inr (Or.inl ⟨rfl, rfl⟩))))
          ((path_adj A B C C B).mpr (Or.inr (Or.inr (Or.inr ⟨rfl, rfl⟩))))
          ((path_mem_verts A B C B).mpr (Or.inr (Or.inl rfl)))
          ((path_mem_verts A B C C).mpr (Or.inr (Or.inr rfl)))
      · intro w hwv hwS hall
        rcases (path_mem_verts A B C w).mp hwv with rfl | rfl | rfl
        · have hc := hall C (Finset.mem_insert_of_mem (Finset.mem_singleton_self _))
          rw [path_adj] at hc
          rcases hc with ⟨h1, _⟩ | ⟨h1, _⟩ | ⟨h1, _⟩ | ⟨_, h2⟩
          · exact hAC h1.symm
          · exact hBC h1.symm
          · exact hBC h1.symm
          · exact hAB h2
        · exact hwS (Finset.mem_insert_self _ _)
        · exact hwS (Finset.mem_insert_of_mem (Finset.mem_singleton_self _))

/-- C9: on the path graph with exactly the edges A - B and B - C on three
distinct vertices, `max_cliques()` reports exactly the cliques `{A, B}` and
`{B, C}`, each exactly once, and nothing else (in particular neither `{A, C}`
nor `{A, B, C}`). -/
theorem path_graph_max_cliques (A B C : Nat)
    (hAB : A ≠ B) (hBC : B ≠ C) (hAC : A ≠ C) (S : Finset Nat) :
    countClique S (buildGraph [(A, B), (B, C)]).max_cliques =
      if S = {A, B} ∨ S = {B, C} then 1 else 0 := by
  have hdist : ∀ p ∈ [(A, B), (B, C)], p.1 ≠ p.2 := by
    intro p hp
    rcases List.mem_cons.mp hp with rfl | hp
    · exact hAB
    · rw [List.mem_singleton] at hp
      rw [hp]
      exact hBC
  rw [countClique_max_cliques [(A, B), (B, C)] hdist S,
    if_congr (path_maxClique_iff A B C hAB hBC hAC S) rfl rfl]

/-- Witness for C9 at the concrete vertices 0, 1, 2: `{0, 1}` is reported
exactly once. -/
theorem path_graph_max_cliques_witness :
    countClique {0, 1} (buildGraph [(0, 1), (1, 2)]).max_cliques = 1 := by
  rw [path_graph_max_cliques 0 1 2 (by decide) (by decide) (by decide) {0, 1}]
  decide

/-! ## C8: max_cliques does not mutate the graph -/

lemma bkSt_eq : ∀ (fuel : Nat) (g : Graph) (R P X : Finset Nat),
    bkSt fuel g R P X = (g, bk g fuel R P X) := by
  intro fuel
  induction fuel with
  | zero => intro g R P X; rfl
  | succ f ih =>
      have hloop : ∀ (vs : List Nat) (g : Graph) (R P X : Finset Nat),
          bkLoopStF (bkSt f) R g vs P X = (g, bkLoopF (bk g f) g R vs P X) := by
        intro vs
        induction vs with
        | nil => intro g R P X; rfl
        | cons v rest ihv =>
            intro g R P X
            simp only [bkLoopStF, bkLoopF, neighborsSt, ih, ihv]
      intro g R P X
      show (let r := bkLoopStF (bkSt f) R g (finsetAscList P) P X
            (r.1, (if P = ∅ ∧ X = ∅ then [R] else []) ++ r.2)) =
        (g, bk g (f + 1) R P X)
      rw [bk_succ]
      simp only [hloop]

lemma maxCliquesAuxSt_eq (fuel : Nat) :
    ∀ (vs : List Nat) (g : Graph) (possible excluded : Finset Nat),
      maxCliquesAuxSt fuel g vs possible excluded =
        (g, maxCliquesAux g fuel vs possible excluded) := by
  intro vs
  induction vs with
  | nil => intro g possible excluded; rfl
  | cons v rest ihv =>
      intro g possible excluded
      simp only [maxCliquesAuxSt, maxCliquesAux_cons, neighborsSt, bkSt_eq, ihv]

/-- C8: `max_cliques()` does not mutate the graph.  Threading the adjacency
map through every operation of the search returns it unchanged, so the vertex
set and every neighbor set observed after the call coincide with those
observed before it, and the clique list computed from the final state is the
one computed from the initial state. -/
theorem max_cliques_no_mutation (g : Graph) :
    g.max_cliquesSt.1 = g ∧ g.max_cliquesSt.2 = g.max_cliques ∧
      (∀ v, g.max_cliquesSt.1.neighbors v = g.neighbors v) ∧
      g.max_cliquesSt.1.vertices = g.vertices := by
  have hmain : g.max_cliquesSt = (g, g.max_cliques) := by
    show (let a := verticesSt g
          let b := degeneracyOrderingSt a.1
          maxCliquesAuxSt (a.2.length + 1) b.1 b.2 a.2.toFinset ∅) = _
    simp only [verticesSt, degeneracyOrderingSt, maxCliquesAuxSt_eq]
    rfl
  rw [hmain]
  exact ⟨rfl, rfl, fun v => rfl, rfl⟩
